import Mathlib

/-!
Verification of the faculty-status-display backend (src/backend/server.js and
src/backend/db/faculty.js).  The sections below give a shallow embedding of the
status resolver (`getCurrentStatus`), the periodic recomputation tick
(`updateStatuses`), the override sweeper (`clearExpiredOverride` /
`updateFacultyOverride`) and the reconciliation merger (`syncFacultyFromJSON`),
followed by theorems settling the specification's claims about them.

Conventions of the embedding:
* JavaScript "HH:MM" strings are kept as Lean `String`s; the source compares
  them with the string relational operators, which are lexicographic in both
  languages.
* Timestamps (`Date` values) are modelled as `Int`; `new Date()` is passed in
  explicitly as the `now : Int` parameter, and the Dhaka-zone weekday and
  "HH:MM" rendering of the clock are passed as `day timeStr : String`
  (the clock adapter is an input, as the spec's fixed/fake-clock contract asks).
* JavaScript truthiness of the relevant fields: a missing/null string field is
  `none`, an empty string is `some ""`; both are falsy.  A missing/null
  timestamp is `none`.
-/

/-- One entry of `classTimes[day]` in the source: `{start, end, room?, batch?}`.
The source's `end` field is called `stop` here (`end` is a Lean keyword). -/
structure ClassInterval where
  start : String
  stop : String
  room : Option String
  batch : Option String
deriving DecidableEq, Repr

/-- A faculty record as consumed by `getCurrentStatus` (after
`FacultyDB.getAllFaculty` has defaulted `weekend`, `officeHours`, `classTimes`).
`classTimes` and `officeHours` are the day-keyed objects, as association lists
(JSON object keys are unique; lookup takes the first match). -/
structure Faculty where
  name : String
  weekend : List String
  classTimes : List (String × List ClassInterval)
  officeHours : List (String × List String)
  manualOverride : Option String
  overrideExpiry : Option Int
deriving DecidableEq, Repr

/-- The shape of the object returned by `getCurrentStatus`: either a bare
`{status}` object or an `{status: "in_class", room, batch}` object. -/
inductive StatusResult where
  | simple (status : String)
  | inClass (room : Option String) (batch : Option String)
deriving DecidableEq, Repr

/-- The `status` field of the returned object. -/
def StatusResult.statusOf : StatusResult → String
  | .simple s => s
  | .inClass _ _ => "in_class"

/-- JavaScript `a < b` on strings: lexicographic comparison, modelled on the
string's character list. -/
def strLt (a b : String) : Prop := a.data < b.data

instance (a b : String) : Decidable (strLt a b) :=
  inferInstanceAs (Decidable (a.data < b.data))

/-- JavaScript `a >= b` on strings (for a total order, `!(a < b)`). -/
def strGe (a b : String) : Prop := ¬ strLt a b

instance (a b : String) : Decidable (strGe a b) :=
  inferInstanceAs (Decidable (¬ strLt a b))

/-- JavaScript truthiness of an optional string field (`null`/absent and `""`
are falsy). -/
def truthy : Option String → Bool
  | none => false
  | some s => s != ""

/-- `x || null` on an optional string field (used for `cls.room || null` and
`cls.batch || null`). -/
def orNull : Option String → Option String
  | none => none
  | some s => if s = "" then none else some s

/-- The source's matching condition for one class interval:
`cls.start < cls.end && timeStr >= cls.start && timeStr < cls.end`. -/
def classMatches (timeStr : String) (c : ClassInterval) : Prop :=
  strLt c.start c.stop ∧ strGe timeStr c.start ∧ strLt timeStr c.stop

instance (timeStr : String) (c : ClassInterval) : Decidable (classMatches timeStr c) := by
  unfold classMatches; infer_instance

/-- The `for (const cls of classes)` loop of `getCurrentStatus`: first interval
satisfying the matching condition wins. -/
def findClass (timeStr : String) : List ClassInterval → Option ClassInterval
  | [] => none
  | c :: rest => if classMatches timeStr c then some c else findClass timeStr rest

/-- Rules 2-5 of `getCurrentStatus` (weekend, class, office hours, default),
reached when the override rule does not return. -/
def scheduleStatus (day timeStr : String) (f : Faculty) : StatusResult :=
  if day ∈ f.weekend then .simple "on_weekend"
  else
    match (f.classTimes.lookup day).bind (findClass timeStr) with
    | some c => .inClass (orNull c.room) (orNull c.batch)
    | none =>
      match f.officeHours.lookup day with
      | some [start, e] =>
        if strLt start e ∧ strGe timeStr start ∧ strLt timeStr e then .simple "at_dept"
        else .simple "off_duty"
      | _ => .simple "off_duty"

/-- `getCurrentStatus` (server.js lines 724-777).  The clock inputs are
explicit; the returned `Bool` records whether `clearExpiredOverride` was
invoked (the fire-and-forget call on the expired-override path). -/
def getCurrentStatus (now : Int) (day timeStr : String) (f : Faculty) :
    StatusResult × Bool :=
  match f.manualOverride, f.overrideExpiry with
  | some m, some expiry =>
    if m = "" then (scheduleStatus day timeStr f, false)
    else if now < expiry then (.simple m, false)
    else (scheduleStatus day timeStr f, true)
  | _, _ => (scheduleStatus day timeStr f, false)

/-- The override rule's guard: `faculty.manualOverride && faculty.overrideExpiry`
truthy and `now < expiry`. -/
def overrideActive (now : Int) (f : Faculty) : Bool :=
  match f.manualOverride, f.overrideExpiry with
  | some m, some expiry => m != "" && decide (now < expiry)
  | _, _ => false

/-- The office-hours rule's guard (an array value of length exactly two with
`start < end` and `timeStr` in `[start, end)`). -/
def officeMatch (day timeStr : String) (f : Faculty) : Bool :=
  match f.officeHours.lookup day with
  | some [start, e] => decide (strLt start e ∧ strGe timeStr start ∧ strLt timeStr e)
  | _ => false

/-- The five rules of the resolver, in precedence order. -/
inductive Rule where
  | overrideRule | weekendRule | classRule | officeRule | defaultRule
deriving DecidableEq, Repr

/-- Which of the five rules fires, following the resolver's cascade. -/
def firedRule (now : Int) (day timeStr : String) (f : Faculty) : Rule :=
  if overrideActive now f then .overrideRule
  else if day ∈ f.weekend then .weekendRule
  else if ((f.classTimes.lookup day).bind (findClass timeStr)).isSome then .classRule
  else if officeMatch day timeStr f then .officeRule
  else .defaultRule

/-! ## The persistent store and `db/faculty.js`

For the scheduler tick (claim C2) the store is viewed through
`updateFacultyStatus`, which only touches the `status` field: the tick store is
the projection of the faculty collection to `(name, status)` pairs.

For reconciliation and the override sweeper, documents are modelled with the
fields the algorithms read or write (`name`, the override pair, `status`,
`createdAt`, `updatedAt`) plus one opaque `sched` blob standing for all other
JSON fields of the entry (designation, contact, weekend, classTimes, ...),
which `syncFacultyFromJSON` copies wholesale via the object spread.  An
`Option` field with value `none` stands for an absent-or-null field. -/

/-- `FacultyDB.updateFacultyStatus` as it affects the `(name, status)`
projection of the collection: `updateOne({name}, {$set: {status}})` sets the
status of the first document whose name matches; no match, no change. -/
def updateFacultyStatus (name : String) (s : StatusResult) :
    List (String × StatusResult) → List (String × StatusResult)
  | [] => []
  | (n, old) :: rest =>
    if n = name then (n, s) :: rest else (n, old) :: updateFacultyStatus name s rest

/-- One scheduler tick, `updateStatuses` (server.js lines 787-800).  The single
`try`/`catch` wraps the whole `for` loop: a write that throws (modelled by
`fails` on the record's name) ends the loop, and the store keeps only the
writes made before the failure.  The resolver's clock inputs are explicit. -/
def updateStatuses (now : Int) (day timeStr : String) (fails : String → Bool) :
    List Faculty → List (String × StatusResult) → List (String × StatusResult)
  | [], st => st
  | f :: rest, st =>
    if fails f.name then st
    else updateStatuses now day timeStr fails rest
      (updateFacultyStatus f.name (getCurrentStatus now day timeStr f).1 st)

/-- The tick with no write failures: every record's resolved status is
persisted in order. -/
def runAllWrites (now : Int) (day timeStr : String)
    (recs : List Faculty) (st : List (String × StatusResult)) :
    List (String × StatusResult) :=
  recs.foldl (fun s f => updateFacultyStatus f.name (getCurrentStatus now day timeStr f).1 s) st

/-- An entry of the external `faculty.json` source, as read by
`syncFacultyFromJSON`.  `name` may be absent or empty (then the entry is
skipped); `sched` stands for all remaining JSON fields copied by the spread;
`status`, `manualOverride`, `overrideExpiry` are kept separate because the
algorithm treats them specially.  An outer `none` means the key is absent from
the JSON object; `manualOverride = some none` means the key is present with
value `null`. -/
structure Entry where
  name : Option String
  sched : String
  status : Option String
  manualOverride : Option (Option String)
  overrideExpiry : Option (Option Int)
deriving DecidableEq, Repr

/-- A document of the `faculty` collection, restricted to the fields the
reconciliation and sweeper algorithms read or write. -/
structure DbRec where
  name : String
  sched : String
  status : Option String
  manualOverride : Option String
  overrideExpiry : Option Int
  createdAt : Option Int
  updatedAt : Option Int
deriving DecidableEq, Repr

/-- The `{inserted, updated, skipped}` counters reported by the sync. -/
structure SyncCounts where
  inserted : Nat
  updated : Nat
  skipped : Nat
deriving DecidableEq, Repr

/-- The `if (!faculty.name)` skip test: the usable name of an entry, `none`
when the name is absent or empty (falsy). -/
def nameKey (e : Entry) : Option String :=
  match e.name with
  | none => none
  | some s => if s = "" then none else some s

/-- The stash condition of `syncFacultyFromJSON`:
`f.manualOverride && f.overrideExpiry` truthy and `expiry > now`. -/
def qualifies (now : Int) (r : DbRec) : Bool :=
  truthy r.manualOverride &&
    match r.overrideExpiry with
    | some x => decide (now < x)
    | none => false

/-- The `overrideMap` built by the `existingFaculty.forEach` pass, as a lookup
function: `Map.set` keyed on the name, so the last qualifying document with a
given name wins. -/
def overrideMapLookup (now : Int) (st : List DbRec) (n : String) :
    Option (String × Int) :=
  st.foldl
    (fun acc r =>
      if r.name = n ∧ qualifies now r = true then
        some (r.manualOverride.getD "", r.overrideExpiry.getD 0)
      else acc)
    none

/-- The `facultyData` object built for one entry: the spread of the entry's
JSON fields, `updatedAt` refreshed to now, and the stashed override pair
re-applied over the entry's own override fields when the stash has this name. -/
structure FacultyData where
  name : String
  sched : String
  status : Option String
  manualOverride : Option (Option String)
  overrideExpiry : Option (Option Int)
  updatedAt : Int
deriving DecidableEq, Repr

/-- Build `facultyData` for an entry with usable name `n`. -/
def mkFacultyData (now : Int) (stash : Option (String × Int)) (e : Entry)
    (n : String) : FacultyData :=
  match stash with
  | some (m, x) =>
    { name := n, sched := e.sched, status := e.status,
      manualOverride := some (some m), overrideExpiry := some (some x),
      updatedAt := now }
  | none =>
    { name := n, sched := e.sched, status := e.status,
      manualOverride := e.manualOverride, overrideExpiry := e.overrideExpiry,
      updatedAt := now }

/-- MongoDB `$set` of `facultyData` into an existing document: only the keys
present in `facultyData` are written, the rest of the document is kept
(`$setOnInsert: {createdAt}` with `upsert: false` never applies). -/
def mergeFacultyData (fd : FacultyData) (r : DbRec) : DbRec :=
  { name := fd.name, sched := fd.sched,
    status := match fd.status with | some v => some v | none => r.status,
    manualOverride := match fd.manualOverride with | some v => v | none => r.manualOverride,
    overrideExpiry := match fd.overrideExpiry with | some v => v | none => r.overrideExpiry,
    createdAt := r.createdAt,
    updatedAt := some fd.updatedAt }

/-- `updateOne({name: fd.name}, {$set: fd}, {upsert: false})`: rewrite the
first document whose name matches; the returned flag is `modifiedCount > 0`,
true when the write actually changed the document. -/
def updateFirst (fd : FacultyData) : List DbRec → List DbRec × Bool
  | [] => ([], false)
  | r :: rs =>
    if r.name = fd.name then
      (mergeFacultyData fd r :: rs, decide (mergeFacultyData fd r ≠ r))
    else
      let p := updateFirst fd rs
      (r :: p.1, p.2)

/-- `faculty.status || "off_duty"`: the status stored by the insert path. -/
def insertStatus (e : Entry) : String :=
  match e.status with
  | some s => if s = "" then "off_duty" else s
  | none => "off_duty"

/-- The document inserted on the new-faculty path: `facultyData` plus
`createdAt = new Date()` and `status = faculty.status || "off_duty"`. -/
def insertRec (now : Int) (fd : FacultyData) (e : Entry) : DbRec :=
  { name := fd.name, sched := fd.sched,
    status := some (insertStatus e),
    manualOverride := fd.manualOverride.join,
    overrideExpiry := fd.overrideExpiry.join,
    createdAt := some now,
    updatedAt := some fd.updatedAt }

/-- The body of the `for (const faculty of jsonData)` loop of
`syncFacultyFromJSON` for one entry.  `names` is the `existingNames` snapshot
and `omap` the `overrideMap` lookup, both computed once before the loop. -/
def syncStep (now : Int) (names : List String) (omap : String → Option (String × Int))
    (acc : List DbRec × SyncCounts) (e : Entry) : List DbRec × SyncCounts :=
  match nameKey e with
  | none => (acc.1, { acc.2 with skipped := acc.2.skipped + 1 })
  | some n =>
    let fd := mkFacultyData now (omap n) e n
    if n ∈ names then
      let p := updateFirst fd acc.1
      if p.2 then (p.1, { acc.2 with updated := acc.2.updated + 1 })
      else (p.1, { acc.2 with skipped := acc.2.skipped + 1 })
    else
      (acc.1 ++ [insertRec now fd e], { acc.2 with inserted := acc.2.inserted + 1 })

/-- `syncFacultyFromJSON` (server.js lines 92-187): reconcile the external
source `src` into the store `st` at time `now`, returning the new store and
the `{inserted, updated, skipped}` counters. -/
def syncFacultyFromJSON (now : Int) (src : List Entry) (st : List DbRec) :
    List DbRec × SyncCounts :=
  src.foldl (syncStep now (st.map (·.name)) (overrideMapLookup now st)) (st, ⟨0, 0, 0⟩)

/-- `FacultyDB.updateFacultyOverride` (db/faculty.js lines 51-64):
`updateOne({name}, {$set: {manualOverride, overrideExpiry, updatedAt}})` on the
first document whose name matches. -/
def updateFacultyOverride (now : Int) (name : String) (mo : Option String)
    (oe : Option Int) : List DbRec → List DbRec
  | [] => []
  | r :: rs =>
    if r.name = name then
      { r with manualOverride := mo, overrideExpiry := oe, updatedAt := some now } :: rs
    else r :: updateFacultyOverride now name mo oe rs

/-- `clearExpiredOverride` (server.js lines 779-785): clear both override
fields to null for the named faculty. -/
def clearExpiredOverride (now : Int) (name : String) (st : List DbRec) : List DbRec :=
  updateFacultyOverride now name none none st

/-- The first document of the collection with the given name (the document a
`{name: ...}` filter addresses). -/
def findByName (n : String) : List DbRec → Option DbRec
  | [] => none
  | r :: rs => if r.name = n then some r else findByName n rs

/-- An override-map lookup function agrees, at name `n`, with what the
`forEach` pass computes over a store whose names are distinct: the qualifying
pair of the document named `n`, if any. -/
def omapConsistent (now : Int) (om : String → Option (String × Int))
    (st : List DbRec) (n : String) : Prop :=
  match findByName n st with
  | some r =>
    om n = if qualifies now r then
        some (r.manualOverride.getD "", r.overrideExpiry.getD 0)
      else none
  | none => om n = none

/-- What one pass of `syncFacultyFromJSON` leaves in the store for an entry
with usable name `n`, phrased against the pre-pass name snapshot `ns` and
override map `om`: the document named `n` carries the entry's spread fields,
a refreshed `updatedAt`, the stashed override when one was stashed, the
entry's own override fields when none was, and the insert-path defaults when
the name was new. -/
def entryProcessed (now : Int) (ns : List String)
    (om : String → Option (String × Int)) (e : Entry) (n : String)
    (st1 : List DbRec) : Prop :=
  ∃ r, findByName n st1 = some r ∧
    r.sched = e.sched ∧
    (∀ s, e.status = some s → s ≠ "" → r.status = some s) ∧
    r.updatedAt = some now ∧
    (n ∈ ns → ∀ m x, om n = some (m, x) →
      r.manualOverride = some m ∧ r.overrideExpiry = some x) ∧
    (n ∈ ns → om n = none →
      (∀ v, e.manualOverride = some v → r.manualOverride = v) ∧
      (∀ w, e.overrideExpiry = some w → r.overrideExpiry = w)) ∧
    (n ∉ ns →
      r.manualOverride = e.manualOverride.join ∧
      r.overrideExpiry = e.overrideExpiry.join ∧
      r.status = some (insertStatus e) ∧ r.createdAt = some now)

/-- A store on which re-running the sync with source `src` at time `now` is a
per-document no-op: every named entry addresses an existing document and the
`$set` it would issue rewrites every field to its current value. -/
def noopStore (now : Int) (src : List Entry) (st1 : List DbRec) : Prop :=
  ∀ e ∈ src, ∀ n, nameKey e = some n →
    n ∈ st1.map (·.name) ∧
    ∀ r ∈ st1, r.name = n →
      mergeFacultyData
        (mkFacultyData now (overrideMapLookup now st1 n) e n) r = r

/-! ## Concrete records used by witnesses and counterexamples -/

/-- A record matching the spec's Monday-class example, with office hours. -/
def fExample : Faculty :=
  { name := "A", weekend := [],
    classTimes := [("Monday", [⟨"10:00", "11:00", some "301", none⟩])],
    officeHours := [("Monday", ["09:00", "17:00"])],
    manualOverride := none, overrideExpiry := none }

/-- A record with no schedule at all. -/
def fPlain : Faculty :=
  { name := "A", weekend := [], classTimes := [], officeHours := [],
    manualOverride := none, overrideExpiry := none }

/-- A record whose Friday is a weekend day. -/
def fWeekend : Faculty :=
  { name := "B", weekend := ["Friday"], classTimes := [], officeHours := [],
    manualOverride := none, overrideExpiry := none }

/-- Office hours 09:00-17:00 on Monday, and a Monday class interval that also
covers 09:00 (used to refute the office-hours boundary claim as stated). -/
def fOfficeAndClass : Faculty :=
  { name := "C", weekend := [],
    classTimes := [("Monday", [⟨"09:00", "17:30", some "301", none⟩])],
    officeHours := [("Monday", ["09:00", "17:00"])],
    manualOverride := none, overrideExpiry := none }

/-- Office hours 09:00-17:00 on Monday and nothing else. -/
def fOfficeOnly : Faculty :=
  { name := "D", weekend := [], classTimes := [],
    officeHours := [("Monday", ["09:00", "17:00"])],
    manualOverride := none, overrideExpiry := none }

/-- Monday class list with a malformed interval first (start after end), then
two overlapping well-formed intervals. -/
def clsC6 : List ClassInterval :=
  [⟨"11:00", "10:00", some "X", none⟩,
   ⟨"10:00", "11:00", some "301", some "CSE-1"⟩,
   ⟨"10:00", "12:00", some "999", none⟩]

/-- A record whose Monday classes are `clsC6`. -/
def fC6 : Faculty :=
  { name := "E", weekend := [], classTimes := [("Monday", clsC6)],
    officeHours := [], manualOverride := none, overrideExpiry := none }

/-- The tick store holding the cached statuses of `fPlain` and `fWeekend`. -/
def tickStore0 : List (String × StatusResult) :=
  [("A", .simple "off_duty"), ("B", .simple "off_duty")]

/-- A source entry with a name and nothing else. -/
def eA : Entry :=
  { name := some "A", sched := "s", status := none,
    manualOverride := none, overrideExpiry := none }

/-- A stored document named "A" with an override expiring at time 100. -/
def rOverride : DbRec :=
  { name := "A", sched := "old", status := some "off_duty",
    manualOverride := some "sick", overrideExpiry := some 100,
    createdAt := some (-5), updatedAt := some (-5) }

/-- A source entry named "A" carrying its own (different) override fields. -/
def eOverride : Entry :=
  { name := some "A", sched := "new", status := none,
    manualOverride := some (some "away"), overrideExpiry := some (some 7) }

/-! ## Theorems

Sanity checks of the embedding against the spec's worked examples, then one
theorem (plus witness or counterexample) per claim. -/

example : (getCurrentStatus 0 "Monday" "10:30" fExample).1
    = .inClass (some "301") none := by decide

example : (getCurrentStatus 0 "Monday" "09:00" fExample).1 = .simple "at_dept" := by decide

example : (getCurrentStatus 0 "Friday" "13:00" fWeekend).1 = .simple "on_weekend" := by decide

example :
    (getCurrentStatus 5 "Monday" "10:30"
      { fExample with manualOverride := some "on_leave", overrideExpiry := some 10 })
    = (.simple "on_leave", false) := by decide

example :
    (getCurrentStatus 15 "Monday" "10:30"
      { fExample with manualOverride := some "on_leave", overrideExpiry := some 10 })
    = (.inClass (some "301") none, true) := by decide

/-- When the override guard does not pass, the resolver's status is the
schedule-derived one. -/
theorem getCurrentStatus_fst_of_not_active (now : Int) (day timeStr : String)
    (f : Faculty) (h : overrideActive now f = false) :
    (getCurrentStatus now day timeStr f).1 = scheduleStatus day timeStr f := by
  unfold getCurrentStatus
  unfold overrideActive at h
  cases hmo : f.manualOverride with
  | none => simp
  | some m =>
    cases hoe : f.overrideExpiry with
    | none => simp
    | some x =>
      rw [hmo, hoe] at h
      simp only [Bool.and_eq_false_iff, bne_eq_false_iff_eq,
        decide_eq_false_iff_not, not_lt] at h
      rcases h with h | h
      · simp [h]
      · by_cases hm : m = "" <;> simp [hm, not_lt.mpr h]

/-- The schedule rules read none of the override fields. -/
theorem scheduleStatus_erase_override (day timeStr : String) (f : Faculty) :
    scheduleStatus day timeStr
      { f with manualOverride := none, overrideExpiry := none } =
    scheduleStatus day timeStr f := rfl

/-- C1: a record with a truthy manual override and `now` strictly before the
expiry resolves to `{status: manualOverride}` with no clear triggered,
whatever the weekend, class and office-hours fields hold. -/
theorem C1_active_override_wins (now : Int) (day timeStr : String) (f : Faculty)
    (m : String) (x : Int) (hm : f.manualOverride = some m) (hne : m ≠ "")
    (hx : f.overrideExpiry = some x) (hlt : now < x) :
    getCurrentStatus now day timeStr f = (.simple m, false) := by
  unfold getCurrentStatus
  rw [hm, hx]
  simp [hne, hlt]

/-- Witness for C1 at a concrete record whose schedule would say `in_class`. -/
theorem C1_active_override_wins_witness :
    ({ fExample with manualOverride := some "on_leave", overrideExpiry := some 10 }
        : Faculty).manualOverride = some "on_leave" ∧ (5 : Int) < 10 ∧
    getCurrentStatus 5 "Monday" "10:30"
      { fExample with manualOverride := some "on_leave", overrideExpiry := some 10 }
      = (.simple "on_leave", false) :=
  ⟨rfl, by decide,
    C1_active_override_wins 5 "Monday" "10:30"
      { fExample with manualOverride := some "on_leave", overrideExpiry := some 10 }
      "on_leave" 10 rfl (by decide) rfl (by decide)⟩

/-- C10: when `manualOverride` is falsy (absent, null or the empty string) or
`overrideExpiry` is falsy, the resolver skips the override rule: it returns
the schedule-derived status, triggers no clear, and behaves exactly as on the
record with both override fields removed. -/
theorem C10_falsy_override_skipped (now : Int) (day timeStr : String) (f : Faculty)
    (h : truthy f.manualOverride = false ∨ f.overrideExpiry = none) :
    getCurrentStatus now day timeStr f = (scheduleStatus day timeStr f, false) ∧
    getCurrentStatus now day timeStr f =
      getCurrentStatus now day timeStr
        { f with manualOverride := none, overrideExpiry := none } := by
  have hrhs : getCurrentStatus now day timeStr
      { f with manualOverride := none, overrideExpiry := none } =
      (scheduleStatus day timeStr f, false) := by
    unfold getCurrentStatus
    simp [scheduleStatus_erase_override]
  have hmain : getCurrentStatus now day timeStr f =
      (scheduleStatus day timeStr f, false) := by
    unfold getCurrentStatus
    cases hmo : f.manualOverride with
    | none => simp
    | some m =>
      cases hoe : f.overrideExpiry with
      | none => simp
      | some x =>
        rw [hmo, hoe] at h
        rcases h with h | h
        · unfold truthy at h
          simp only [bne_eq_false_iff_eq] at h
          simp [h]
        · exact absurd h (by simp)
  exact ⟨hmain, hmain.trans hrhs.symm⟩

/-- Witness for C10: `manualOverride` set alone (expiry null) is ignored. -/
theorem C10_falsy_override_skipped_witness :
    (truthy ({ fExample with manualOverride := some "on_leave" }
        : Faculty).manualOverride = false ∨
      ({ fExample with manualOverride := some "on_leave" } : Faculty).overrideExpiry
        = none) ∧
    getCurrentStatus 5 "Monday" "10:30" { fExample with manualOverride := some "on_leave" }
      = (scheduleStatus "Monday" "10:30" fExample, false) :=
  ⟨Or.inr rfl,
    (C10_falsy_override_skipped 5 "Monday" "10:30"
      { fExample with manualOverride := some "on_leave" } (Or.inr rfl)).1⟩

/-- After `updateFacultyOverride`, the addressed document carries exactly the
written override pair. -/
theorem updateFacultyOverride_find (now : Int) (name : String) (mo : Option String)
    (oe : Option Int) :
    ∀ (st : List DbRec) (r : DbRec),
      findByName name (updateFacultyOverride now name mo oe st) = some r →
      r.manualOverride = mo ∧ r.overrideExpiry = oe := by
  intro st
  induction st with
  | nil =>
    intro r h
    simp [updateFacultyOverride, findByName] at h
  | cons a rest ih =>
    intro r h
    unfold updateFacultyOverride at h
    by_cases ha : a.name = name
    · rw [if_pos ha] at h
      unfold findByName at h
      rw [if_pos ha] at h
      cases h
      exact ⟨rfl, rfl⟩
    · rw [if_neg ha] at h
      unfold findByName at h
      rw [if_neg ha] at h
      exact ih r h

/-- A second `updateFacultyOverride` writing the same pair overwrites the
first one's effect completely (it differs only in the `updatedAt` it wrote). -/
theorem updateFacultyOverride_absorb (t1 t2 : Int) (name : String)
    (mo : Option String) (oe : Option Int) :
    ∀ st : List DbRec,
      updateFacultyOverride t2 name mo oe (updateFacultyOverride t1 name mo oe st) =
        updateFacultyOverride t2 name mo oe st := by
  intro st
  induction st with
  | nil => simp [updateFacultyOverride]
  | cons a rest ih =>
    by_cases ha : a.name = name
    · simp [updateFacultyOverride, ha]
    · simp [updateFacultyOverride, ha, ih]

/-- C4: with a truthy override and `now` at or past the expiry, the resolver
answers as if the override were absent (the schedule-derived status) and
triggers the clear; the clear nulls both override fields of the addressed
document, and clearing twice leaves the same store as clearing once. -/
theorem C4_expired_override_cleared :
    (∀ (now : Int) (day timeStr : String) (f : Faculty) (m : String) (x : Int),
        f.manualOverride = some m → m ≠ "" → f.overrideExpiry = some x → x ≤ now →
        getCurrentStatus now day timeStr f =
          ((getCurrentStatus now day timeStr
              { f with manualOverride := none, overrideExpiry := none }).1, true)) ∧
    (∀ (now : Int) (name : String) (st : List DbRec) (r : DbRec),
        findByName name (clearExpiredOverride now name st) = some r →
        r.manualOverride = none ∧ r.overrideExpiry = none) ∧
    (∀ (t1 t2 : Int) (name : String) (st : List DbRec),
        clearExpiredOverride t2 name (clearExpiredOverride t1 name st) =
          clearExpiredOverride t2 name st) := by
  refine ⟨?_, ?_, ?_⟩
  · intro now day ts f m x hm hne hx hle
    unfold getCurrentStatus
    rw [hm, hx]
    simp [hne, not_lt.mpr hle, scheduleStatus_erase_override]
  · intro now name st r h
    exact updateFacultyOverride_find now name none none st r h
  · intro t1 t2 name st
    exact updateFacultyOverride_absorb t1 t2 name none none st

/-- Witness for C4 at a concrete expired override and a one-document store. -/
theorem C4_expired_override_cleared_witness :
    ((10 : Int) ≤ 15 ∧
      getCurrentStatus 15 "Monday" "10:30"
          { fExample with manualOverride := some "on_leave", overrideExpiry := some 10 }
        = ((getCurrentStatus 15 "Monday" "10:30" fExample).1, true)) ∧
    (∃ r, findByName "A" (clearExpiredOverride 3 "A" [rOverride]) = some r ∧
      r.manualOverride = none ∧ r.overrideExpiry = none) ∧
    clearExpiredOverride 5 "A" (clearExpiredOverride 3 "A" [rOverride]) =
      clearExpiredOverride 5 "A" [rOverride] :=
  ⟨⟨by decide,
    C4_expired_override_cleared.1 15 "Monday" "10:30"
      { fExample with manualOverride := some "on_leave", overrideExpiry := some 10 }
      "on_leave" 10 rfl (by decide) rfl (by decide)⟩,
   ⟨{ rOverride with manualOverride := none, overrideExpiry := none,
                     updatedAt := some 3 },
    rfl,
    C4_expired_override_cleared.2.1 3 "A" [rOverride]
      { rOverride with manualOverride := none, overrideExpiry := none,
                       updatedAt := some 3 } rfl⟩,
   C4_expired_override_cleared.2.2 3 5 "A" [rOverride]⟩

/-- C2 as stated is false: with records A then B and a store whose write for A
fails, the tick leaves B's cached status untouched even though B resolves to
`on_weekend`. -/
theorem C2_counterexample :
    updateStatuses 0 "Friday" "10:00" (fun n => n == "A") [fPlain, fWeekend] tickStore0
        = tickStore0 ∧
    (getCurrentStatus 0 "Friday" "10:00" fWeekend).1 = .simple "on_weekend" ∧
    tickStore0.lookup "B" = some (.simple "off_duty") ∧
    (StatusResult.simple "off_duty" : StatusResult) ≠ .simple "on_weekend" := by
  exact ⟨rfl, by decide, rfl, by decide⟩

/-- C2 amended: one record's write failure is caught at the tick level (the
scheduler survives and later ticks run), but it aborts the remainder of that
tick: records before the failing one keep their freshly written statuses,
records after it are not updated; a tick with no failures writes them all. -/
theorem C2_amended_failure_aborts_tick :
    (∀ (now : Int) (day timeStr : String) (fails : String → Bool)
        (pre : List Faculty) (bad : Faculty) (post : List Faculty)
        (st : List (String × StatusResult)),
        (∀ f ∈ pre, fails f.name = false) → fails bad.name = true →
        updateStatuses now day timeStr fails (pre ++ bad :: post) st =
          runAllWrites now day timeStr pre st) ∧
    (∀ (now : Int) (day timeStr : String) (fails : String → Bool)
        (recs : List Faculty) (st : List (String × StatusResult)),
        (∀ f ∈ recs, fails f.name = false) →
        updateStatuses now day timeStr fails recs st =
          runAllWrites now day timeStr recs st) := by
  constructor
  · intro now day ts fails pre
    induction pre with
    | nil =>
      intro bad post st _ hbad
      simp [updateStatuses, hbad, runAllWrites]
    | cons a rest ih =>
      intro bad post st hpre hbad
      have ha : fails a.name = false := hpre a (by simp)
      simp only [List.cons_append, updateStatuses, ha, Bool.false_eq_true,
        if_false, runAllWrites, List.foldl_cons]
      exact ih bad post _ (fun f hf => hpre f (by simp [hf])) hbad
  · intro now day ts fails recs
    induction recs with
    | nil =>
      intro st _
      simp [updateStatuses, runAllWrites]
    | cons a rest ih =>
      intro st hrec
      have ha : fails a.name = false := hrec a (by simp)
      simp only [updateStatuses, ha, Bool.false_eq_true, if_false,
        runAllWrites, List.foldl_cons]
      exact ih _ (fun f hf => hrec f (by simp [hf]))

/-- Witness for the amended C2: B before the failing A is still written. -/
theorem C2_amended_failure_aborts_tick_witness :
    (∀ f ∈ [fWeekend], (fun n => n == "A") f.name = false) ∧
    (fun n => n == "A") fPlain.name = true ∧
    updateStatuses 0 "Friday" "10:00" (fun n => n == "A")
        ([fWeekend] ++ fPlain :: []) tickStore0
      = runAllWrites 0 "Friday" "10:00" [fWeekend] tickStore0 :=
  ⟨by decide, by decide,
    C2_amended_failure_aborts_tick.1 0 "Friday" "10:00" (fun n => n == "A")
      [fWeekend] fPlain [] tickStore0 (by decide) (by decide)⟩

/-- C7 as stated is false: this record satisfies every condition the claim
lists (no active override, today not a weekend day, office hours
09:00-17:00), yet at "09:00" the resolver returns `in_class`, not `at_dept`,
because a class interval also covers 09:00 and the class rule has precedence. -/
theorem C7_counterexample :
    truthy fOfficeAndClass.manualOverride = false ∧
    fOfficeAndClass.overrideExpiry = none ∧
    "Monday" ∉ fOfficeAndClass.weekend ∧
    fOfficeAndClass.officeHours.lookup "Monday" = some ["09:00", "17:00"] ∧
    (getCurrentStatus 0 "Monday" "09:00" fOfficeAndClass).1
      = .inClass (some "301") none ∧
    (getCurrentStatus 0 "Monday" "09:00" fOfficeAndClass).1 ≠ .simple "at_dept" :=
  ⟨rfl, rfl, by decide, rfl, by decide, by decide⟩

/-- C7 amended: additionally assuming no class interval matches at the queried
time, the office-hours interval is half-open: `at_dept` at "09:00" and
"16:59", never `at_dept` at "08:59" or "17:00" (those two need no class
assumption at all). -/
theorem C7_amended_office_boundary (now : Int) (day : String) (f : Faculty)
    (hov : overrideActive now f = false) (hwk : day ∉ f.weekend)
    (hoff : f.officeHours.lookup day = some ["09:00", "17:00"]) :
    ((f.classTimes.lookup day).bind (findClass "09:00") = none →
        (getCurrentStatus now day "09:00" f).1 = .simple "at_dept") ∧
    ((f.classTimes.lookup day).bind (findClass "16:59") = none →
        (getCurrentStatus now day "16:59" f).1 = .simple "at_dept") ∧
    (getCurrentStatus now day "08:59" f).1 ≠ .simple "at_dept" ∧
    (getCurrentStatus now day "17:00" f).1 ≠ .simple "at_dept" := by
  refine ⟨?_, ?_, ?_, ?_⟩
  · intro hcl
    rw [getCurrentStatus_fst_of_not_active _ _ _ _ hov]
    unfold scheduleStatus
    rw [if_neg hwk, hcl, hoff]
    decide
  · intro hcl
    rw [getCurrentStatus_fst_of_not_active _ _ _ _ hov]
    unfold scheduleStatus
    rw [if_neg hwk, hcl, hoff]
    decide
  · rw [getCurrentStatus_fst_of_not_active _ _ _ _ hov]
    unfold scheduleStatus
    rw [if_neg hwk]
    cases hcl : (f.classTimes.lookup day).bind (findClass "08:59") with
    | some c => simp
    | none => rw [hoff]; decide
  · rw [getCurrentStatus_fst_of_not_active _ _ _ _ hov]
    unfold scheduleStatus
    rw [if_neg hwk]
    cases hcl : (f.classTimes.lookup day).bind (findClass "17:00") with
    | some c => simp
    | none => rw [hoff]; decide

/-- Witness for the amended C7 on a record with office hours and no classes. -/
theorem C7_amended_office_boundary_witness :
    overrideActive 0 fOfficeOnly = false ∧ "Monday" ∉ fOfficeOnly.weekend ∧
    fOfficeOnly.officeHours.lookup "Monday" = some ["09:00", "17:00"] ∧
    (fOfficeOnly.classTimes.lookup "Monday").bind (findClass "09:00") = none ∧
    (getCurrentStatus 0 "Monday" "09:00" fOfficeOnly).1 = .simple "at_dept" ∧
    (getCurrentStatus 0 "Monday" "08:59" fOfficeOnly).1 ≠ .simple "at_dept" :=
  ⟨rfl, by decide, rfl, rfl,
   (C7_amended_office_boundary 0 "Monday" fOfficeOnly rfl (by decide) rfl).1 rfl,
   (C7_amended_office_boundary 0 "Monday" fOfficeOnly rfl (by decide) rfl).2.2.1⟩

/-- Any interval the class loop returns satisfies the matching condition. -/
theorem findClass_matches (timeStr : String) :
    ∀ (cs : List ClassInterval) (c : ClassInterval),
      findClass timeStr cs = some c → classMatches timeStr c := by
  intro cs
  induction cs with
  | nil => intro c h; simp [findClass] at h
  | cons a rest ih =>
    intro c h
    unfold findClass at h
    by_cases hm : classMatches timeStr a
    · rw [if_pos hm] at h
      cases h
      exact hm
    · rw [if_neg hm] at h
      exact ih c h

/-- The class loop returns exactly the first interval, in list order, that
satisfies the matching condition. -/
theorem findClass_first_match (timeStr : String) :
    ∀ (cs : List ClassInterval) (c : ClassInterval),
      findClass timeStr cs = some c ↔
        ∃ i : Fin cs.length, cs.get i = c ∧ classMatches timeStr c ∧
          ∀ j : Fin cs.length, (j : ℕ) < (i : ℕ) →
            ¬ classMatches timeStr (cs.get j) := by
  intro cs
  induction cs with
  | nil =>
    intro c
    constructor
    · intro h; simp [findClass] at h
    · rintro ⟨i, -⟩; exact absurd i.2 (by simp)
  | cons a rest ih =>
    intro c
    by_cases hm : classMatches timeStr a
    · rw [findClass, if_pos hm]
      constructor
      · intro h
        cases h
        refine ⟨⟨0, by simp⟩, rfl, hm, ?_⟩
        intro j hj
        exact absurd hj (Nat.not_lt_zero _)
      · rintro ⟨⟨iv, hi⟩, hget, hmc, hfirst⟩
        cases iv with
        | zero => rw [← hget]; rfl
        | succ k => exact absurd hm (hfirst ⟨0, by simp⟩ (by simp))
    · rw [findClass, if_neg hm, ih c]
      constructor
      · rintro ⟨⟨iv, hi⟩, hget, hmc, hfirst⟩
        refine ⟨⟨iv + 1, by simpa using Nat.succ_lt_succ hi⟩, by simpa using hget,
          hmc, ?_⟩
        rintro ⟨jv, hj⟩ hlt
        cases jv with
        | zero => simpa using hm
        | succ k =>
          have := hfirst ⟨k, by simp at hj; omega⟩ (Nat.lt_of_succ_lt_succ hlt)
          simpa using this
      · rintro ⟨⟨iv, hi⟩, hget, hmc, hfirst⟩
        cases iv with
        | zero =>
          exfalso
          apply hm
          have : a = c := by simpa using hget
          rw [this]
          exact hmc
        | succ k =>
          refine ⟨⟨k, by simp at hi; omega⟩, by simpa using hget, hmc, ?_⟩
          rintro ⟨jv, hj⟩ hlt
          have := hfirst ⟨jv + 1, by simp; omega⟩ (Nat.succ_lt_succ hlt)
          simpa using this

/-- C6: under no active override and not a weekend day, the class list for
today is scanned in order and the first interval with `start < end` and
`start <= nowTime < end` wins, producing `in_class` with that interval's
room and batch (`null` for absent/empty ones); an interval with
`start >= end` is never the one returned. -/
theorem C6_first_class_interval_wins (now : Int) (day timeStr : String)
    (f : Faculty) (cs : List ClassInterval) (hov : overrideActive now f = false)
    (hwk : day ∉ f.weekend) (hcs : f.classTimes.lookup day = some cs) :
    (∀ c, findClass timeStr cs = some c →
        (getCurrentStatus now day timeStr f).1 =
          .inClass (orNull c.room) (orNull c.batch) ∧
        ∃ i : Fin cs.length, cs.get i = c ∧ classMatches timeStr c ∧
          ∀ j : Fin cs.length, (j : ℕ) < (i : ℕ) →
            ¬ classMatches timeStr (cs.get j)) ∧
    (∀ c, c ∈ cs → ¬ strLt c.start c.stop → findClass timeStr cs ≠ some c) ∧
    (findClass timeStr cs = none →
        (getCurrentStatus now day timeStr f).1 = .simple "at_dept" ∨
        (getCurrentStatus now day timeStr f).1 = .simple "off_duty") := by
  refine ⟨?_, ?_, ?_⟩
  · intro c hc
    constructor
    · rw [getCurrentStatus_fst_of_not_active _ _ _ _ hov]
      unfold scheduleStatus
      rw [if_neg hwk, hcs]
      simp only [Option.some_bind]
      rw [hc]
    · exact (findClass_first_match timeStr cs c).mp hc
  · intro c _ hbad hc
    exact hbad ((findClass_matches timeStr cs c) hc).1
  · intro hnone
    rw [getCurrentStatus_fst_of_not_active _ _ _ _ hov]
    unfold scheduleStatus
    rw [if_neg hwk, hcs]
    simp only [Option.some_bind]
    rw [hnone]
    cases hl : f.officeHours.lookup day with
    | none => simp
    | some l =>
      rcases l with - | ⟨s, - | ⟨e, - | rest⟩⟩
      · simp
      · simp
      · by_cases hcond : strLt s e ∧ strGe timeStr s ∧ strLt timeStr e
        · simp [hcond]
        · simp [hcond]
      · simp

/-- Witness for C6: the malformed head interval is skipped, the first
well-formed matching interval wins over the later overlapping one, and its
room and batch are returned. -/
theorem C6_first_class_interval_wins_witness :
    overrideActive 0 fC6 = false ∧ "Monday" ∉ fC6.weekend ∧
    fC6.classTimes.lookup "Monday" = some clsC6 ∧
    findClass "10:30" clsC6 = some ⟨"10:00", "11:00", some "301", some "CSE-1"⟩ ∧
    (getCurrentStatus 0 "Monday" "10:30" fC6).1
      = .inClass (some "301") (some "CSE-1") ∧
    ¬ strLt (ClassInterval.mk "11:00" "10:00" (some "X") none).start
        (ClassInterval.mk "11:00" "10:00" (some "X") none).stop ∧
    findClass "10:30" clsC6 ≠ some ⟨"11:00", "10:00", some "X", none⟩ :=
  ⟨rfl, by decide, rfl, by decide,
   ((C6_first_class_interval_wins 0 "Monday" "10:30" fC6 clsC6 rfl (by decide)
        rfl).1 ⟨"10:00", "11:00", some "301", some "CSE-1"⟩ (by decide)).1,
   by decide,
   (C6_first_class_interval_wins 0 "Monday" "10:30" fC6 clsC6 rfl (by decide)
        rfl).2.1 ⟨"11:00", "10:00", some "X", none⟩ (by decide) (by decide)⟩

/-- When the override guard passes, the resolver returns the override string
(which the guard guarantees is non-empty) and triggers no clear. -/
theorem getCurrentStatus_of_active (now : Int) (day timeStr : String)
    (f : Faculty) (h : overrideActive now f = true) :
    getCurrentStatus now day timeStr f =
      (.simple (f.manualOverride.getD ""), false) ∧
    f.manualOverride.getD "" ≠ "" := by
  unfold overrideActive at h
  unfold getCurrentStatus
  cases hmo : f.manualOverride with
  | none => rw [hmo] at h; simp at h
  | some m =>
    cases hoe : f.overrideExpiry with
    | none => rw [hmo, hoe] at h; simp at h
    | some x =>
      rw [hmo, hoe] at h
      simp only [Bool.and_eq_true, bne_iff_ne, ne_eq, decide_eq_true_eq] at h
      obtain ⟨hm, hx⟩ := h
      simp [hm, hx]

/-- With the weekend and class rules out of the way, the schedule result is
decided by the office-hours guard. -/
theorem scheduleStatus_office_phase (day timeStr : String) (f : Faculty)
    (hwk : day ∉ f.weekend)
    (hcl : (f.classTimes.lookup day).bind (findClass timeStr) = none) :
    scheduleStatus day timeStr f =
      if officeMatch day timeStr f then .simple "at_dept"
      else .simple "off_duty" := by
  unfold scheduleStatus officeMatch
  rw [if_neg hwk, hcl]
  cases hl : f.officeHours.lookup day with
  | none => simp
  | some l =>
    rcases l with - | ⟨s, - | ⟨e, - | rest⟩⟩
    · simp
    · simp
    · by_cases hcond : strLt s e ∧ strGe timeStr s ∧ strLt timeStr e
      · simp [hcond]
      · simp [hcond]
    · simp

/-- C8: the resolver is total and unambiguous.  `firedRule` names the unique
rule that fires (it is a total function into the five rules); each rule fires
exactly under its guard with all higher-precedence guards failing; the
returned object is the one that rule produces; and the status string is never
empty. -/
theorem C8_exactly_one_rule_fires (now : Int) (day timeStr : String)
    (f : Faculty) :
    (firedRule now day timeStr f = .overrideRule ↔
        overrideActive now f = true) ∧
    (firedRule now day timeStr f = .weekendRule ↔
        overrideActive now f = false ∧ day ∈ f.weekend) ∧
    (firedRule now day timeStr f = .classRule ↔
        overrideActive now f = false ∧ day ∉ f.weekend ∧
          ((f.classTimes.lookup day).bind (findClass timeStr)).isSome = true) ∧
    (firedRule now day timeStr f = .officeRule ↔
        overrideActive now f = false ∧ day ∉ f.weekend ∧
          (f.classTimes.lookup day).bind (findClass timeStr) = none ∧
          officeMatch day timeStr f = true) ∧
    (firedRule now day timeStr f = .defaultRule ↔
        overrideActive now f = false ∧ day ∉ f.weekend ∧
          (f.classTimes.lookup day).bind (findClass timeStr) = none ∧
          officeMatch day timeStr f = false) ∧
    (firedRule now day timeStr f = .overrideRule →
        (getCurrentStatus now day timeStr f).1 =
          .simple (f.manualOverride.getD "")) ∧
    (firedRule now day timeStr f = .weekendRule →
        (getCurrentStatus now day timeStr f).1 = .simple "on_weekend") ∧
    (firedRule now day timeStr f = .classRule →
        ∃ c, (f.classTimes.lookup day).bind (findClass timeStr) = some c ∧
          (getCurrentStatus now day timeStr f).1 =
            .inClass (orNull c.room) (orNull c.batch)) ∧
    (firedRule now day timeStr f = .officeRule →
        (getCurrentStatus now day timeStr f).1 = .simple "at_dept") ∧
    (firedRule now day timeStr f = .defaultRule →
        (getCurrentStatus now day timeStr f).1 = .simple "off_duty") ∧
    (getCurrentStatus now day timeStr f).1.statusOf ≠ "" := by
  by_cases h1 : overrideActive now f = true
  · obtain ⟨hres, hne⟩ := getCurrentStatus_of_active now day timeStr f h1
    simp [firedRule, h1, hres, hne, StatusResult.statusOf]
  · have h1' : overrideActive now f = false := by
      simpa using h1
    have hsch := getCurrentStatus_fst_of_not_active now day timeStr f h1'
    by_cases h2 : day ∈ f.weekend
    · have hws : scheduleStatus day timeStr f = .simple "on_weekend" := by
        unfold scheduleStatus
        rw [if_pos h2]
      simp [firedRule, h1', h2, hsch, hws, StatusResult.statusOf]
    · by_cases h3 :
          ((f.classTimes.lookup day).bind (findClass timeStr)).isSome = true
      · obtain ⟨c, hc⟩ := Option.isSome_iff_exists.mp h3
        have hcs : scheduleStatus day timeStr f =
            .inClass (orNull c.room) (orNull c.batch) := by
          unfold scheduleStatus
          rw [if_neg h2, hc]
        refine ⟨?_, ?_, ?_, ?_, ?_, ?_, ?_, ?_, ?_, ?_, ?_⟩ <;>
          simp [firedRule, h1', h2, h3, hc, hsch, hcs, StatusResult.statusOf]
      · have h3' : (f.classTimes.lookup day).bind (findClass timeStr) = none :=
          Option.not_isSome_iff_eq_none.mp (by simpa using h3)
        have hoff := scheduleStatus_office_phase day timeStr f h2 h3'
        by_cases h4 : officeMatch day timeStr f = true
        · have hat : scheduleStatus day timeStr f = .simple "at_dept" := by
            rw [hoff, if_pos h4]
          simp [firedRule, h1', h2, h3', h4, hsch, hat, StatusResult.statusOf]
        · have h4' : officeMatch day timeStr f = false := by
            simpa using h4
          have hod : scheduleStatus day timeStr f = .simple "off_duty" := by
            rw [hoff, if_neg (by simp [h4'])]
          simp [firedRule, h1', h2, h3', h4', hsch, hod, StatusResult.statusOf]

/-- Witness for C8 at a concrete weekend record. -/
theorem C8_exactly_one_rule_fires_witness :
    firedRule 0 "Friday" "13:00" fWeekend = .weekendRule ∧
    (getCurrentStatus 0 "Friday" "13:00" fWeekend).1 = .simple "on_weekend" ∧
    (getCurrentStatus 0 "Friday" "13:00" fWeekend).1.statusOf ≠ "" :=
  ⟨by decide,
   (C8_exactly_one_rule_fires 0 "Friday" "13:00" fWeekend).2.2.2.2.2.2.1
     (by decide),
   (C8_exactly_one_rule_fires 0 "Friday" "13:00" fWeekend).2.2.2.2.2.2.2.2.2.2⟩

/-! ## Lemmas about the reconciliation primitives -/

/-- A truthy optional string is `some` of its own default-read. -/
theorem truthy_eq_some (o : Option String) (h : truthy o = true) :
    o = some (o.getD "") ∧ o.getD "" ≠ "" := by
  cases o with
  | none => simp [truthy] at h
  | some s =>
    simp only [truthy, bne_iff_ne, ne_eq] at h
    simp [h]

/-- Unfolding of the stash guard. -/
theorem qualifies_iff (now : Int) (r : DbRec) :
    qualifies now r = true ↔
      ∃ m, r.manualOverride = some m ∧ m ≠ "" ∧
        ∃ x, r.overrideExpiry = some x ∧ now < x := by
  unfold qualifies
  cases hmo : r.manualOverride with
  | none => simp [truthy]
  | some m =>
    cases hoe : r.overrideExpiry with
    | none => simp [truthy]
    | some x => simp [truthy]

/-- `updateOne` with a `$set` keeps the document names unchanged. -/
theorem updateFirst_map_name (fd : FacultyData) :
    ∀ st : List DbRec, (updateFirst fd st).1.map (·.name) = st.map (·.name) := by
  intro st
  induction st with
  | nil => rfl
  | cons r rs ih =>
    unfold updateFirst
    by_cases h : r.name = fd.name
    · simp [h, mergeFacultyData]
    · simp [h, ih]

/-- Unfolding of `updateFirst` when the head document matches the filter. -/
theorem updateFirst_cons_pos (fd : FacultyData) (r : DbRec) (rs : List DbRec)
    (h : r.name = fd.name) :
    updateFirst fd (r :: rs) =
      (mergeFacultyData fd r :: rs, decide (mergeFacultyData fd r ≠ r)) := by
  rw [updateFirst, if_pos h]

/-- Unfolding of `updateFirst` when the head document misses the filter. -/
theorem updateFirst_cons_neg (fd : FacultyData) (r : DbRec) (rs : List DbRec)
    (h : ¬ r.name = fd.name) :
    updateFirst fd (r :: rs) =
      (r :: (updateFirst fd rs).1, (updateFirst fd rs).2) := by
  rw [updateFirst, if_neg h]

/-- `updateOne` is the identity (and reports no modification) when every
same-named document is already a fixpoint of the `$set`. -/
theorem updateFirst_no_change (fd : FacultyData) :
    ∀ st : List DbRec,
      (∀ r ∈ st, r.name = fd.name → mergeFacultyData fd r = r) →
      updateFirst fd st = (st, false) := by
  intro st
  induction st with
  | nil => intro _; rfl
  | cons r rs ih =>
    intro h
    by_cases hr : r.name = fd.name
    · have heq := h r (by simp) hr
      rw [updateFirst_cons_pos fd r rs hr, heq]
      simp
    · have hrs := ih (fun x hx hn => h x (by simp [hx]) hn)
      rw [updateFirst_cons_neg fd r rs hr, hrs]

/-- `updateOne` on one name leaves lookups of any other name unchanged. -/
theorem findByName_updateFirst_ne (fd : FacultyData) (n : String)
    (hne : n ≠ fd.name) :
    ∀ st : List DbRec, findByName n (updateFirst fd st).1 = findByName n st := by
  intro st
  induction st with
  | nil => rfl
  | cons r rs ih =>
    by_cases hr : r.name = fd.name
    · rw [updateFirst_cons_pos fd r rs hr]
      show findByName n (mergeFacultyData fd r :: rs) = findByName n (r :: rs)
      rw [findByName, findByName,
        if_neg (show ¬ (mergeFacultyData fd r).name = n by
          simp only [mergeFacultyData]
          exact fun hc => hne hc.symm),
        if_neg (show ¬ r.name = n by
          rw [hr]
          exact fun hc => hne hc.symm)]
    · rw [updateFirst_cons_neg fd r rs hr]
      show findByName n (r :: (updateFirst fd rs).1) = findByName n (r :: rs)
      rw [findByName, findByName]
      by_cases hrn : r.name = n
      · rw [if_pos hrn, if_pos hrn]
      · rw [if_neg hrn, if_neg hrn]
        exact ih

/-- `updateOne` rewrites exactly the first document with the filtered name. -/
theorem findByName_updateFirst_self (fd : FacultyData) :
    ∀ (st : List DbRec) (r0 : DbRec), findByName fd.name st = some r0 →
      findByName fd.name (updateFirst fd st).1 = some (mergeFacultyData fd r0) := by
  intro st
  induction st with
  | nil => intro r0 h; simp [findByName] at h
  | cons r rs ih =>
    intro r0 h
    by_cases hr : r.name = fd.name
    · rw [findByName, if_pos hr] at h
      cases h
      rw [updateFirst_cons_pos fd r rs hr]
      show findByName fd.name (mergeFacultyData fd r :: rs) = _
      rw [findByName, if_pos (show (mergeFacultyData fd r).name = fd.name from rfl)]
    · rw [findByName, if_neg hr] at h
      rw [updateFirst_cons_neg fd r rs hr]
      show findByName fd.name (r :: (updateFirst fd rs).1) = _
      rw [findByName, if_neg hr]
      exact ih r0 h

/-- A name is present among the documents iff its lookup succeeds. -/
theorem findByName_isSome_iff (n : String) :
    ∀ st : List DbRec, (findByName n st).isSome = true ↔ n ∈ st.map (·.name) := by
  intro st
  induction st with
  | nil => simp [findByName]
  | cons r rs ih =>
    rw [findByName]
    by_cases hr : r.name = n
    · rw [if_pos hr]
      simp [hr]
    · rw [if_neg hr]
      simp only [List.map_cons, List.mem_cons]
      rw [ih]
      constructor
      · exact Or.inr
      · rintro (h | h)
        · exact absurd h.symm hr
        · exact h

/-- The name filter really holds of the found document. -/
theorem findByName_name (n : String) :
    ∀ (st : List DbRec) (r : DbRec), findByName n st = some r → r.name = n := by
  intro st
  induction st with
  | nil => intro r h; simp [findByName] at h
  | cons a rs ih =>
    intro r h
    by_cases ha : a.name = n
    · rw [findByName, if_pos ha] at h
      cases h
      exact ha
    · rw [findByName, if_neg ha] at h
      exact ih r h

/-- Appending a document of a different name does not change a lookup. -/
theorem findByName_append_ne (n : String) (x : DbRec) (hx : x.name ≠ n) :
    ∀ st : List DbRec, findByName n (st ++ [x]) = findByName n st := by
  intro st
  induction st with
  | nil => simp [findByName, hx]
  | cons r rs ih =>
    rw [List.cons_append, findByName, findByName]
    by_cases hr : r.name = n
    · rw [if_pos hr, if_pos hr]
    · rw [if_neg hr, if_neg hr]
      exact ih

/-- Appending a document of the sought name to a store lacking it finds it. -/
theorem findByName_append_self (n : String) (x : DbRec) (hx : x.name = n) :
    ∀ st : List DbRec, findByName n st = none →
      findByName n (st ++ [x]) = some x := by
  intro st
  induction st with
  | nil =>
    intro _
    simp [findByName, hx]
  | cons r rs ih =>
    intro h
    by_cases hr : r.name = n
    · rw [findByName, if_pos hr] at h
      cases h
    · rw [findByName, if_neg hr] at h
      rw [List.cons_append, findByName, if_neg hr]
      exact ih h

/-- With distinct names, membership pins a document down to the lookup. -/
theorem mem_eq_findByName :
    ∀ st : List DbRec, (st.map (·.name)).Nodup →
      ∀ r ∈ st, findByName r.name st = some r := by
  intro st
  induction st with
  | nil => intro _ r h; cases h
  | cons a rs ih =>
    intro hnd r hr
    simp only [List.map_cons, List.nodup_cons] at hnd
    rcases List.mem_cons.mp hr with rfl | hmem
    · rw [findByName, if_pos rfl]
    · have hne : ¬ a.name = r.name := by
        intro hc
        exact hnd.1 (by rw [hc]; exact List.mem_map_of_mem (·.name) hmem)
      rw [findByName, if_neg hne]
      exact ih hnd.2 r hmem

/-- The override map only ever holds stashes built from a qualifying document:
a non-empty status and a strictly future expiry. -/
theorem omapFold_good (now : Int) (n : String) :
    ∀ (st : List DbRec) (acc : Option (String × Int)),
      (∀ m x, acc = some (m, x) → m ≠ "" ∧ now < x) →
      ∀ m x,
        st.foldl
          (fun acc r =>
            if r.name = n ∧ qualifies now r = true then
              some (r.manualOverride.getD "", r.overrideExpiry.getD 0)
            else acc)
          acc = some (m, x) →
        m ≠ "" ∧ now < x := by
  intro st
  induction st with
  | nil =>
    intro acc hacc m x h
    rw [List.foldl_nil] at h
    exact hacc m x h
  | cons r rs ih =>
    intro acc hacc m x h
    rw [List.foldl_cons] at h
    refine ih _ ?_ m x h
    intro m' x' hacc'
    by_cases hc : r.name = n ∧ qualifies now r = true
    · rw [if_pos hc] at hacc'
      obtain ⟨m0, hmo, hm0, x0, hoe, hx0⟩ := (qualifies_iff now r).mp hc.2
      cases hacc'
      rw [hmo, hoe]
      simp [hm0, hx0]
    · rw [if_neg hc] at hacc'
      exact hacc m' x' hacc'

/-- Specialisation of `omapFold_good` to `overrideMapLookup`. -/
theorem overrideMapLookup_good (now : Int) (st : List DbRec) (n : String)
    (m : String) (x : Int) (h : overrideMapLookup now st n = some (m, x)) :
    m ≠ "" ∧ now < x := by
  unfold overrideMapLookup at h
  exact omapFold_good now n st none (by intro m' x' hc; cases hc) m x h

/-- The override-map fold ignores documents of other names. -/
theorem omapFold_no_match (now : Int) (n : String) :
    ∀ (st : List DbRec) (acc : Option (String × Int)),
      (∀ r ∈ st, r.name ≠ n) →
      st.foldl
        (fun acc r =>
          if r.name = n ∧ qualifies now r = true then
            some (r.manualOverride.getD "", r.overrideExpiry.getD 0)
          else acc)
        acc = acc := by
  intro st
  induction st with
  | nil => intro acc _; rfl
  | cons r rs ih =>
    intro acc h
    rw [List.foldl_cons, if_neg (fun hc => h r (by simp) hc.1)]
    exact ih acc (fun x hx => h x (by simp [hx]))


/-- Over a store with distinct names, the override map at `n` is exactly the
qualifying pair of the document named `n`, when there is one. -/
theorem overrideMapLookup_eq (now : Int) (n : String) :
    ∀ st : List DbRec, (st.map (·.name)).Nodup →
      omapConsistent now (overrideMapLookup now st) st n := by
  intro st
  induction st with
  | nil =>
    intro _
    simp [omapConsistent, findByName, overrideMapLookup]
  | cons r rs ih =>
    intro hnd
    simp only [List.map_cons, List.nodup_cons] at hnd
    by_cases hr : r.name = n
    · have hnone : ∀ x ∈ rs, x.name ≠ n := by
        intro x hx hc
        exact hnd.1 (by rw [hr, ← hc]; exact List.mem_map_of_mem (·.name) hx)
      unfold omapConsistent
      rw [findByName, if_pos hr]
      unfold overrideMapLookup
      rw [List.foldl_cons, omapFold_no_match now n rs _ hnone]
      by_cases hq : qualifies now r = true
      · rw [if_pos ⟨hr, hq⟩]
        show some (r.manualOverride.getD "", r.overrideExpiry.getD 0) =
          if qualifies now r = true then
            some (r.manualOverride.getD "", r.overrideExpiry.getD 0)
          else none
        rw [if_pos hq]
      · rw [if_neg (fun hc => hq hc.2)]
        show (none : Option (String × Int)) =
          if qualifies now r = true then
            some (r.manualOverride.getD "", r.overrideExpiry.getD 0)
          else none
        rw [if_neg hq]
    · have hstep : overrideMapLookup now (r :: rs) n = overrideMapLookup now rs n := by
        unfold overrideMapLookup
        rw [List.foldl_cons, if_neg (fun hc => hr hc.1)]
      unfold omapConsistent
      rw [findByName, if_neg hr, hstep]
      have hrec := ih hnd.2
      unfold omapConsistent at hrec
      exact hrec

/-- The `facultyData` object is always keyed by the entry's usable name. -/
theorem mkFacultyData_name (now : Int) (s : Option (String × Int)) (e : Entry)
    (n : String) : (mkFacultyData now s e n).name = n := by
  rcases s with - | ⟨m, x⟩ <;> rfl

/-- The `facultyData` object always carries the entry's spread fields. -/
theorem mkFacultyData_sched (now : Int) (s : Option (String × Int)) (e : Entry)
    (n : String) : (mkFacultyData now s e n).sched = e.sched := by
  rcases s with - | ⟨m, x⟩ <;> rfl

/-- The `facultyData` object always carries the entry's status field. -/
theorem mkFacultyData_status (now : Int) (s : Option (String × Int)) (e : Entry)
    (n : String) : (mkFacultyData now s e n).status = e.status := by
  rcases s with - | ⟨m, x⟩ <;> rfl

/-- The `facultyData` object always refreshes `updatedAt` to now. -/
theorem mkFacultyData_updatedAt (now : Int) (s : Option (String × Int))
    (e : Entry) (n : String) : (mkFacultyData now s e n).updatedAt = now := by
  rcases s with - | ⟨m, x⟩ <;> rfl

/-- Unfolding of the loop body on an entry with no usable name. -/
theorem syncStep_skip (now : Int) (ns : List String)
    (om : String → Option (String × Int)) (acc : List DbRec × SyncCounts)
    (e : Entry) (h : nameKey e = none) :
    syncStep now ns om acc e =
      (acc.1, { acc.2 with skipped := acc.2.skipped + 1 }) := by
  unfold syncStep
  rw [h]

/-- Unfolding of the loop body on an entry with usable name `n`, with the
resulting counters factored out of the store. -/
theorem syncStep_named (now : Int) (ns : List String)
    (om : String → Option (String × Int)) (acc : List DbRec × SyncCounts)
    (e : Entry) (n : String) (h : nameKey e = some n) :
    syncStep now ns om acc e =
      if n ∈ ns then
        ((updateFirst (mkFacultyData now (om n) e n) acc.1).1,
          if (updateFirst (mkFacultyData now (om n) e n) acc.1).2 = true then
            { acc.2 with updated := acc.2.updated + 1 }
          else { acc.2 with skipped := acc.2.skipped + 1 })
      else
        (acc.1 ++ [insertRec now (mkFacultyData now (om n) e n) e],
          { acc.2 with inserted := acc.2.inserted + 1 }) := by
  unfold syncStep
  rw [h]
  show (if n ∈ ns then
      if (updateFirst (mkFacultyData now (om n) e n) acc.1).2 = true then
        ((updateFirst (mkFacultyData now (om n) e n) acc.1).1,
          { acc.2 with updated := acc.2.updated + 1 })
      else
        ((updateFirst (mkFacultyData now (om n) e n) acc.1).1,
          { acc.2 with skipped := acc.2.skipped + 1 })
    else
      (acc.1 ++ [insertRec now (mkFacultyData now (om n) e n) e],
        { acc.2 with inserted := acc.2.inserted + 1 })) = _
  by_cases hn : n ∈ ns
  · rw [if_pos hn, if_pos hn]
    by_cases hup : (updateFirst (mkFacultyData now (om n) e n) acc.1).2 = true
    · rw [if_pos hup, if_pos hup]
    · rw [if_neg hup, if_neg hup]
  · rw [if_neg hn, if_neg hn]

/-- One pass of the sync loop, described entry by entry: names stay distinct,
documents whose name no entry carries are untouched, and for each named entry
the final store holds the processed document (`entryProcessed`).  `ns` and
`om` are the pre-pass snapshot and override map, assumed consistent with the
starting store on the names the entries carry. -/
theorem syncFold_processed (now : Int) (ns : List String)
    (om : String → Option (String × Int)) :
    ∀ (es : List Entry) (stc : List DbRec) (c : SyncCounts),
      (es.filterMap nameKey).Nodup →
      (stc.map (·.name)).Nodup →
      (∀ e ∈ es, ∀ n, nameKey e = some n → (n ∈ ns ↔ n ∈ stc.map (·.name))) →
      (∀ e ∈ es, ∀ n, nameKey e = some n → omapConsistent now om stc n) →
      (((es.foldl (syncStep now ns om) (stc, c)).1.map (·.name)).Nodup) ∧
      (∀ n, (∀ e ∈ es, nameKey e ≠ some n) →
        findByName n (es.foldl (syncStep now ns om) (stc, c)).1 =
          findByName n stc) ∧
      (∀ e ∈ es, ∀ n, nameKey e = some n →
        entryProcessed now ns om e n
          (es.foldl (syncStep now ns om) (stc, c)).1) := by
  intro es
  induction es with
  | nil =>
    intro stc c _ hndS _ _
    rw [List.foldl_nil]
    exact ⟨hndS, fun n _ => rfl, fun e he => absurd he (List.not_mem_nil e)⟩
  | cons e rest ih =>
    intro stc c hndE hndS hns homc
    cases hkey : nameKey e with
    | none =>
      have hndE' : (rest.filterMap nameKey).Nodup := by
        simpa [List.filterMap_cons, hkey] using hndE
      rw [List.foldl_cons, syncStep_skip now ns om (stc, c) e hkey]
      obtain ⟨hA, hB, hC⟩ := ih stc _ hndE' hndS
        (fun e' he' n hn => hns e' (by simp [he']) n hn)
        (fun e' he' n hn => homc e' (by simp [he']) n hn)
      refine ⟨hA, ?_, ?_⟩
      · intro n hn
        exact hB n (fun e' he' => hn e' (by simp [he']))
      · intro e' he' n hn
        rcases List.mem_cons.mp he' with rfl | hmem
        · rw [hkey] at hn; cases hn
        · exact hC e' hmem n hn
    | some n =>
      have hfm : (e :: rest).filterMap nameKey = n :: rest.filterMap nameKey := by
        simp [List.filterMap_cons, hkey]
      rw [hfm] at hndE
      have hne_rest : ∀ e' ∈ rest, nameKey e' ≠ some n := by
        intro e' he' hk
        exact (List.nodup_cons.mp hndE).1 (List.mem_filterMap.mpr ⟨e', he', hk⟩)
      have hndE' : (rest.filterMap nameKey).Nodup := (List.nodup_cons.mp hndE).2
      have hiff := hns e (by simp) n hkey
      have homce := homc e (by simp) n hkey
      rw [List.foldl_cons, syncStep_named now ns om (stc, c) e n hkey]
      by_cases hmem : n ∈ ns
      · -- the name exists: updateOne path
        rw [if_pos hmem]
        have hnstc : n ∈ stc.map (·.name) := hiff.mp hmem
        obtain ⟨r0, hr0⟩ :=
          Option.isSome_iff_exists.mp ((findByName_isSome_iff n stc).mpr hnstc)
        have hnames :
            (updateFirst (mkFacultyData now (om n) e n) stc).1.map (·.name) =
              stc.map (·.name) := updateFirst_map_name _ stc
        have hndS' :
            ((updateFirst (mkFacultyData now (om n) e n) stc).1.map
              (·.name)).Nodup := by
          rw [hnames]; exact hndS
        have hns' : ∀ e' ∈ rest, ∀ n', nameKey e' = some n' →
            (n' ∈ ns ↔
              n' ∈ (updateFirst (mkFacultyData now (om n) e n) stc).1.map (·.name)) := by
          intro e' he' n' hn'
          rw [hnames]
          exact hns e' (by simp [he']) n' hn'
        have homc' : ∀ e' ∈ rest, ∀ n', nameKey e' = some n' →
            omapConsistent now om
              (updateFirst (mkFacultyData now (om n) e n) stc).1 n' := by
          intro e' he' n' hn'
          have hne : n' ≠ n := fun hc => hne_rest e' he' (hc ▸ hn')
          have hcarry := homc e' (by simp [he']) n' hn'
          unfold omapConsistent at hcarry ⊢
          rw [findByName_updateFirst_ne _ n'
            (by rw [mkFacultyData_name]; exact hne) stc]
          exact hcarry
        obtain ⟨hA, hB, hC⟩ :=
          ih (updateFirst (mkFacultyData now (om n) e n) stc).1 _
            hndE' hndS' hns' homc'
        refine ⟨hA, ?_, ?_⟩
        · intro n' hn'
          have hne : n' ≠ n := fun hc => (hn' e (by simp)) (by rw [hkey, hc])
          rw [hB n' (fun e' he' => hn' e' (by simp [he']))]
          exact findByName_updateFirst_ne _ n'
            (by rw [mkFacultyData_name]; exact hne) stc
        · intro e' he' n' hn'
          rcases List.mem_cons.mp he' with rfl | hmemr
          · rw [hkey] at hn'
            cases hn'
            have hself :=
              findByName_updateFirst_self (mkFacultyData now (om n) e' n) stc r0
                (by rw [mkFacultyData_name]; exact hr0)
            rw [mkFacultyData_name] at hself
            refine ⟨mergeFacultyData (mkFacultyData now (om n) e' n) r0,
              by rw [hB n (fun x hx => hne_rest x hx)]; exact hself,
              ?_, ?_, ?_, ?_, ?_, ?_⟩
            · show (mkFacultyData now (om n) e' n).sched = e'.sched
              exact mkFacultyData_sched now (om n) e' n
            · intro s hs _
              show (match (mkFacultyData now (om n) e' n).status with
                | some v => some v
                | none => r0.status) = some s
              rw [mkFacultyData_status, hs]
            · show some (mkFacultyData now (om n) e' n).updatedAt = some now
              rw [mkFacultyData_updatedAt]
            · intro _ m x hom
              rw [hom]
              exact ⟨rfl, rfl⟩
            · intro _ hom
              rw [hom]
              exact ⟨fun v hv => by
                  show (match e'.manualOverride with
                    | some v => v
                    | none => r0.manualOverride) = v
                  rw [hv],
                fun w hw => by
                  show (match e'.overrideExpiry with
                    | some w => w
                    | none => r0.overrideExpiry) = w
                  rw [hw]⟩
            · intro hc
              exact absurd hmem hc
          · exact hC e' hmemr n' hn'
      · -- new name: insert path
        rw [if_neg hmem]
        have hnstc : n ∉ stc.map (·.name) := fun hc => hmem (hiff.mpr hc)
        have hfb : findByName n stc = none := by
          cases hfb : findByName n stc with
          | none => rfl
          | some r =>
            exact absurd
              ((findByName_isSome_iff n stc).mp (by rw [hfb]; rfl)) hnstc
        have homn : om n = none := by
          have hcons := homce
          unfold omapConsistent at hcons
          rw [hfb] at hcons
          exact hcons
        rw [homn]
        have hinsname : (insertRec now (mkFacultyData now none e n) e).name = n := rfl
        have hnames :
            (stc ++ [insertRec now (mkFacultyData now none e n) e]).map (·.name) =
              stc.map (·.name) ++ [n] := by
          rw [List.map_append]
          rfl
        have hndS' :
            ((stc ++ [insertRec now (mkFacultyData now none e n) e]).map
              (·.name)).Nodup := by
          rw [hnames]
          rw [List.nodup_append]
          exact ⟨hndS, List.nodup_singleton n, by simpa using hnstc⟩
        have hns' : ∀ e' ∈ rest, ∀ n', nameKey e' = some n' →
            (n' ∈ ns ↔
              n' ∈ (stc ++ [insertRec now (mkFacultyData now none e n) e]).map
                (·.name)) := by
          intro e' he' n' hn'
          have hne : n' ≠ n := fun hc => hne_rest e' he' (hc ▸ hn')
          rw [hnames]
          rw [List.mem_append]
          constructor
          · intro h
            exact Or.inl ((hns e' (by simp [he']) n' hn').mp h)
          · rintro (h | h)
            · exact (hns e' (by simp [he']) n' hn').mpr h
            · exact absurd (by simpa using h) hne
        have homc' : ∀ e' ∈ rest, ∀ n', nameKey e' = some n' →
            omapConsistent now om
              (stc ++ [insertRec now (mkFacultyData now none e n) e]) n' := by
          intro e' he' n' hn'
          have hne : n' ≠ n := fun hc => hne_rest e' he' (hc ▸ hn')
          have hcarry := homc e' (by simp [he']) n' hn'
          unfold omapConsistent at hcarry ⊢
          rw [findByName_append_ne n' _ (by rw [hinsname]; exact hne.symm) stc]
          exact hcarry
        obtain ⟨hA, hB, hC⟩ :=
          ih (stc ++ [insertRec now (mkFacultyData now none e n) e]) _
            hndE' hndS' hns' homc'
        refine ⟨hA, ?_, ?_⟩
        · intro n' hn'
          have hne : n' ≠ n := fun hc => (hn' e (by simp)) (by rw [hkey, hc])
          rw [hB n' (fun e' he' => hn' e' (by simp [he']))]
          exact findByName_append_ne n' _ (by rw [hinsname]; exact hne.symm) stc
        · intro e' he' n' hn'
          rcases List.mem_cons.mp he' with rfl | hmemr
          · rw [hkey] at hn'
            cases hn'
            refine ⟨insertRec now (mkFacultyData now none e' n) e',
              by
                rw [hB n (fun x hx => hne_rest x hx)]
                exact findByName_append_self n _ hinsname stc hfb,
              rfl, ?_, rfl, ?_, ?_, ?_⟩
            · intro s hs hsne
              show some (insertStatus e') = some s
              unfold insertStatus
              rw [hs]
              show some (if s = "" then "off_duty" else s) = some s
              rw [if_neg hsne]
            · intro hc
              exact absurd hc hmem
            · intro hc
              exact absurd hc hmem
            · intro _
              exact ⟨rfl, rfl, rfl, rfl⟩
          · exact hC e' hmemr n' hn'

/-- `syncStep_skip` with the accumulator pair spelled out. -/
theorem syncStep_skip_pair (now : Int) (ns : List String)
    (om : String → Option (String × Int)) (a1 : List DbRec) (c0 : SyncCounts)
    (e : Entry) (h : nameKey e = none) :
    syncStep now ns om (a1, c0) e =
      (a1, { c0 with skipped := c0.skipped + 1 }) :=
  syncStep_skip now ns om (a1, c0) e h

/-- `syncStep_named` with the accumulator pair spelled out. -/
theorem syncStep_named_pair (now : Int) (ns : List String)
    (om : String → Option (String × Int)) (a1 : List DbRec) (c0 : SyncCounts)
    (e : Entry) (n : String) (h : nameKey e = some n) :
    syncStep now ns om (a1, c0) e =
      if n ∈ ns then
        ((updateFirst (mkFacultyData now (om n) e n) a1).1,
          if (updateFirst (mkFacultyData now (om n) e n) a1).2 = true then
            { c0 with updated := c0.updated + 1 }
          else { c0 with skipped := c0.skipped + 1 })
      else
        (a1 ++ [insertRec now (mkFacultyData now (om n) e n) e],
          { c0 with inserted := c0.inserted + 1 }) :=
  syncStep_named now ns om (a1, c0) e n h

/-- A `$set` that writes every field back to its current value is the
identity on the document. -/
theorem mergeFacultyData_id (fd : FacultyData) (r : DbRec)
    (hname : fd.name = r.name) (hsched : fd.sched = r.sched)
    (hstatus : ∀ v, fd.status = some v → r.status = some v)
    (hmo : ∀ v, fd.manualOverride = some v → r.manualOverride = v)
    (hoe : ∀ w, fd.overrideExpiry = some w → r.overrideExpiry = w)
    (hupd : some fd.updatedAt = r.updatedAt) :
    mergeFacultyData fd r = r := by
  have h1 : (match fd.status with
      | some v => some v
      | none => r.status) = r.status := by
    cases hs : fd.status with
    | none => rfl
    | some v => rw [hstatus v hs]
  have h2 : (match fd.manualOverride with
      | some v => v
      | none => r.manualOverride) = r.manualOverride := by
    cases hs : fd.manualOverride with
    | none => rfl
    | some v => rw [hmo v hs]
  have h3 : (match fd.overrideExpiry with
      | some w => w
      | none => r.overrideExpiry) = r.overrideExpiry := by
    cases hs : fd.overrideExpiry with
    | none => rfl
    | some w => rw [hoe w hs]
  unfold mergeFacultyData
  rw [h1, h2, h3, hname, hsched, hupd]

/-- Running the sync loop over a store it is a no-op for changes nothing and
counts every entry as skipped. -/
theorem syncFold_noop (now : Int) (st1 : List DbRec) :
    ∀ (es : List Entry),
      (∀ e ∈ es, ∀ n, nameKey e = some n →
        n ∈ st1.map (·.name) ∧ ∀ r ∈ st1, r.name = n →
          mergeFacultyData
            (mkFacultyData now (overrideMapLookup now st1 n) e n) r = r) →
      ∀ c : SyncCounts,
        es.foldl (syncStep now (st1.map (·.name)) (overrideMapLookup now st1))
          (st1, c) =
        (st1, { c with skipped := c.skipped + es.length }) := by
  intro es
  induction es with
  | nil =>
    intro _ c
    rw [List.foldl_nil]
    exact rfl
  | cons e rest ih =>
    intro hno c
    cases hkey : nameKey e with
    | none =>
      rw [List.foldl_cons, syncStep_skip_pair _ _ _ _ _ _ hkey,
        ih (fun x hx => hno x (by simp [hx])) _]
      congr 1
      simp only [SyncCounts.mk.injEq, List.length_cons]
      refine ⟨trivial, trivial, ?_⟩
      omega
    | some n =>
      obtain ⟨hmemn, hfix⟩ := hno e (by simp) n hkey
      rw [List.foldl_cons, syncStep_named_pair _ _ _ _ _ _ _ hkey,
        if_pos hmemn]
      have hupd := updateFirst_no_change
        (mkFacultyData now (overrideMapLookup now st1 n) e n) st1
        (fun r hr hn' => hfix r hr (by
          rw [mkFacultyData_name] at hn'
          exact hn'))
      rw [hupd]
      show List.foldl (syncStep now (st1.map (·.name)) (overrideMapLookup now st1))
        (st1, { c with skipped := c.skipped + 1 }) rest = _
      rw [ih (fun x hx => hno x (by simp [hx])) _]
      congr 1
      simp only [SyncCounts.mk.injEq, List.length_cons]
      refine ⟨trivial, trivial, ?_⟩
      omega

/-- The store a sync pass leaves behind is saturated: re-issuing every named
entry's `$set` against it (with its own snapshot and override map) changes no
document.  Requires distinct names in store and source and no entry carrying
an empty-string status. -/
theorem sync_output_noop (now : Int) (src : List Entry) (st : List DbRec)
    (hndS : (st.map (·.name)).Nodup) (hndE : (src.filterMap nameKey).Nodup)
    (hstat : ∀ e ∈ src, e.status ≠ some "") :
    noopStore now src (syncFacultyFromJSON now src st).1 ∧
    ((syncFacultyFromJSON now src st).1.map (·.name)).Nodup := by
  unfold syncFacultyFromJSON
  obtain ⟨hA, hB, hC⟩ := syncFold_processed now (st.map (·.name))
    (overrideMapLookup now st) src st ⟨0, 0, 0⟩ hndE hndS
    (fun e _ n _ => Iff.rfl)
    (fun e _ n _ => overrideMapLookup_eq now n st hndS)
  refine ⟨?_, hA⟩
  intro e he n hn
  obtain ⟨r, hr, hsched, hstatus, hupdat, hS6, hS7, hS8⟩ := hC e he n hn
  have hrname : r.name = n := findByName_name n _ r hr
  refine ⟨(findByName_isSome_iff n _).mp (by rw [hr]; rfl), ?_⟩
  intro rr hrr hrrn
  have hfound := mem_eq_findByName _ hA rr hrr
  rw [hrrn] at hfound
  rw [hr] at hfound
  injection hfound with hinj
  subst hinj
  have hcons := overrideMapLookup_eq now n _ hA
  unfold omapConsistent at hcons
  rw [hr] at hcons
  dsimp only at hcons
  by_cases hq : qualifies now r = true
  · rw [if_pos hq] at hcons
    rw [hcons]
    obtain ⟨m0, hmo0, hm0, x0, hoe0, hx0⟩ := (qualifies_iff now r).mp hq
    apply mergeFacultyData_id
    · rw [mkFacultyData_name, hrname]
    · rw [mkFacultyData_sched, hsched]
    · intro v hv
      rw [mkFacultyData_status] at hv
      exact hstatus v hv (fun hc => (hstat e he) (by rw [hv, hc]))
    · intro v hv
      cases hv
      rw [hmo0]
      simp
    · intro w hw
      cases hw
      rw [hoe0]
      simp
    · rw [mkFacultyData_updatedAt, hupdat]
  · rw [if_neg hq] at hcons
    rw [hcons]
    by_cases hnns : n ∈ st.map (·.name)
    · cases hom0 : overrideMapLookup now st n with
      | some p =>
        obtain ⟨m, x⟩ := p
        obtain ⟨hmo1, hoe1⟩ := hS6 hnns m x hom0
        obtain ⟨hmne, hxlt⟩ := overrideMapLookup_good now st n m x hom0
        exact absurd
          ((qualifies_iff now r).mpr ⟨m, hmo1, hmne, x, hoe1, hxlt⟩) hq
      | none =>
        obtain ⟨hS7mo, hS7oe⟩ := hS7 hnns hom0
        apply mergeFacultyData_id
        · rw [mkFacultyData_name, hrname]
        · rw [mkFacultyData_sched, hsched]
        · intro v hv
          rw [mkFacultyData_status] at hv
          exact hstatus v hv (fun hc => (hstat e he) (by rw [hv, hc]))
        · intro v hv
          exact (hS7mo v hv).symm ▸ rfl
        · intro w hw
          exact (hS7oe w hw).symm ▸ rfl
        · rw [mkFacultyData_updatedAt, hupdat]
    · obtain ⟨hmoj, hoej, hstat8, hcre⟩ := hS8 hnns
      apply mergeFacultyData_id
      · rw [mkFacultyData_name, hrname]
      · rw [mkFacultyData_sched, hsched]
      · intro v hv
        rw [mkFacultyData_status] at hv
        exact hstatus v hv (fun hc => (hstat e he) (by rw [hv, hc]))
      · intro v hv
        have hv' : e.manualOverride = some v := hv
        rw [hmoj, hv']
        rfl
      · intro w hw
        have hw' : e.overrideExpiry = some w := hw
        rw [hoej, hw']
        rfl
      · rw [mkFacultyData_updatedAt, hupdat]

/-- C3 as stated is false: with one named entry and an empty store, the first
run inserts the record at time 0; rerunning the unchanged source at time 1
reports one updated record (not zero) and leaves a different store, because
the `$set` always refreshes `updatedAt` to the run's clock reading. -/
theorem C3_counterexample :
    (syncFacultyFromJSON 1 [eA] (syncFacultyFromJSON 0 [eA] []).1).2.updated
        = 1 ∧
    (syncFacultyFromJSON 1 [eA] (syncFacultyFromJSON 0 [eA] []).1).1 ≠
      (syncFacultyFromJSON 0 [eA] []).1 := by
  exact ⟨rfl, by decide⟩

/-- C3 amended: reconciliation is idempotent up to the `updatedAt` refresh.
For a source with distinct usable names and no empty-string status fields,
over a store with distinct names, a second run that observes the same clock
reading is a pure no-op: it reports zero inserts and zero updates (every
entry is skipped) and leaves the store exactly as the first run did.  (A
second run at a later clock reading differs only in refreshing `updatedAt`,
and reports those rewrites as updates — the counterexample.) -/
theorem C3_amended_idempotent_at_fixed_clock
    (now : Int) (src : List Entry) (st : List DbRec)
    (hndS : (st.map (·.name)).Nodup)
    (hndE : (src.filterMap nameKey).Nodup)
    (hstat : ∀ e ∈ src, e.status ≠ some "") :
    syncFacultyFromJSON now src (syncFacultyFromJSON now src st).1 =
      ((syncFacultyFromJSON now src st).1, ⟨0, 0, src.length⟩) := by
  obtain ⟨hnoop, hA⟩ := sync_output_noop now src st hndS hndE hstat
  have h2 := syncFold_noop now (syncFacultyFromJSON now src st).1 src
    (fun e he n hn => hnoop e he n hn) ⟨0, 0, 0⟩
  show src.foldl
      (syncStep now ((syncFacultyFromJSON now src st).1.map (·.name))
        (overrideMapLookup now (syncFacultyFromJSON now src st).1))
      ((syncFacultyFromJSON now src st).1, ⟨0, 0, 0⟩) =
    ((syncFacultyFromJSON now src st).1, ⟨0, 0, src.length⟩)
  rw [h2]
  simp

/-- Witness for the amended C3 at a one-entry source and empty store. -/
theorem C3_amended_idempotent_at_fixed_clock_witness :
    ((([] : List DbRec).map (·.name)).Nodup ∧
      ([eA].filterMap nameKey).Nodup ∧
      (∀ e ∈ [eA], e.status ≠ some "")) ∧
    syncFacultyFromJSON 0 [eA] (syncFacultyFromJSON 0 [eA] []).1 =
      ((syncFacultyFromJSON 0 [eA] []).1, ⟨0, 0, 1⟩) :=
  ⟨⟨by decide, by decide, by decide⟩,
    C3_amended_idempotent_at_fixed_clock 0 [eA] [] (by decide) (by decide)
      (by decide)⟩

/-- C5: a record holding an override that is truthy and strictly unexpired at
the time reconcile runs keeps exactly that `(manualOverride, overrideExpiry)`
pair while its other fields are overwritten from the matching source entry —
whatever override fields the entry itself carries; a record whose override
does not qualify (absent, empty or expired) gets no protection: a source
entry carrying override fields overwrites them. -/
theorem C5_unexpired_override_preserved
    (now : Int) (src : List Entry) (st : List DbRec)
    (hndS : (st.map (·.name)).Nodup)
    (hndE : (src.filterMap nameKey).Nodup) :
    (∀ (e : Entry) (n : String) (r : DbRec) (m : String) (x : Int),
        e ∈ src → nameKey e = some n → findByName n st = some r →
        r.manualOverride = some m → m ≠ "" → r.overrideExpiry = some x →
        now < x →
        ∃ r1, findByName n (syncFacultyFromJSON now src st).1 = some r1 ∧
          r1.manualOverride = some m ∧ r1.overrideExpiry = some x ∧
          r1.sched = e.sched) ∧
    (∀ (e : Entry) (n : String) (r : DbRec) (v : Option String)
        (w : Option Int),
        e ∈ src → nameKey e = some n → findByName n st = some r →
        qualifies now r = false →
        e.manualOverride = some v → e.overrideExpiry = some w →
        ∃ r1, findByName n (syncFacultyFromJSON now src st).1 = some r1 ∧
          r1.manualOverride = v ∧ r1.overrideExpiry = w ∧
          r1.sched = e.sched) := by
  unfold syncFacultyFromJSON
  obtain ⟨hA, hB, hC⟩ := syncFold_processed now (st.map (·.name))
    (overrideMapLookup now st) src st ⟨0, 0, 0⟩ hndE hndS
    (fun e _ n _ => Iff.rfl)
    (fun e _ n _ => overrideMapLookup_eq now n st hndS)
  constructor
  · intro e n r m x he hn hfb hmo hmne hoe hlt
    obtain ⟨r1, hr1, hsched, -, -, hS6, -, -⟩ := hC e he n hn
    have hnns : n ∈ st.map (·.name) :=
      (findByName_isSome_iff n st).mp (by rw [hfb]; rfl)
    have hq : qualifies now r = true :=
      (qualifies_iff now r).mpr ⟨m, hmo, hmne, x, hoe, hlt⟩
    have hcons := overrideMapLookup_eq now n st hndS
    unfold omapConsistent at hcons
    rw [hfb] at hcons
    dsimp only at hcons
    rw [if_pos hq, hmo, hoe] at hcons
    simp only [Option.getD_some] at hcons
    obtain ⟨h6a, h6b⟩ := hS6 hnns m x hcons
    exact ⟨r1, hr1, h6a, h6b, hsched⟩
  · intro e n r v w he hn hfb hq hev hew
    obtain ⟨r1, hr1, hsched, -, -, -, hS7, -⟩ := hC e he n hn
    have hnns : n ∈ st.map (·.name) :=
      (findByName_isSome_iff n st).mp (by rw [hfb]; rfl)
    have hcons := overrideMapLookup_eq now n st hndS
    unfold omapConsistent at hcons
    rw [hfb] at hcons
    dsimp only at hcons
    rw [if_neg (by rw [hq]; exact Bool.false_ne_true)] at hcons
    obtain ⟨h7a, h7b⟩ := hS7 hnns hcons
    exact ⟨r1, hr1, h7a v hev, h7b w hew, hsched⟩

/-- Witness for C5: the stored override "sick"/100 is unexpired at time 10
and survives the sync although the entry carries "away"/7; at time 200 it is
expired and the entry's own override fields win. -/
theorem C5_unexpired_override_preserved_witness :
    (rOverride.manualOverride = some "sick" ∧
      rOverride.overrideExpiry = some 100 ∧ (10 : Int) < 100 ∧
      findByName "A" [rOverride] = some rOverride ∧
      nameKey eOverride = some "A") ∧
    (∃ r1, findByName "A" (syncFacultyFromJSON 10 [eOverride] [rOverride]).1
        = some r1 ∧
      r1.manualOverride = some "sick" ∧ r1.overrideExpiry = some 100 ∧
      r1.sched = eOverride.sched) ∧
    (qualifies 200 rOverride = false ∧
      ∃ r1, findByName "A" (syncFacultyFromJSON 200 [eOverride] [rOverride]).1
          = some r1 ∧
        r1.manualOverride = some "away" ∧ r1.overrideExpiry = some 7 ∧
        r1.sched = eOverride.sched) :=
  ⟨⟨rfl, rfl, by decide, rfl, rfl⟩,
   (C5_unexpired_override_preserved 10 [eOverride] [rOverride] (by decide)
      (by decide)).1 eOverride "A" rOverride "sick" 100 (by decide) rfl rfl
      rfl (by decide) rfl (by decide),
   by decide,
   (C5_unexpired_override_preserved 200 [eOverride] [rOverride] (by decide)
      (by decide)).2 eOverride "A" rOverride (some "away") (some 7)
      (by decide) rfl rfl (by decide) rfl rfl⟩
